import Mathlib

/-!
Verification of the squinn WebTransport-over-HTTP/3 server.

This file gives a shallow embedding, in Lean 4, of the parts of the
repository relevant to its specification: the outbound GSO-splitting
queue (`src/server_wtransport/src/outbound.rs` and the identical
`push_transmit` in `src/server_wtransport/src/server.rs`), the session
datagram API (`src/server_wtransport/src/session.rs`), the endpoint
event drain and next-timeout computation
(`src/server_wtransport/src/server.rs`, `src/server/src/main.rs`), the
HTTP/3 SETTINGS receive halves, the GRO receive fan-out
(`src/server_wtransport/src/socket.rs`), and the QUIC varint coding
used for WebTransport session ids.

Bytes are modelled as `Nat`, byte buffers as `List Nat`, and `Instant`
as a `Nat` tick count.  Fallible or possibly-panicking code returns
`Option` / `Except`; a loop of the source that may diverge is modelled
with explicit fuel, and its termination is then a theorem.
-/

namespace Squinn

/-! ## Transmit metadata (quinn_proto::Transmit)

The `destination`, `ecn` and `src_ip` fields are opaque to all the code
modelled here (they are only copied around), so they are embedded as
plain numbers / optional numbers. -/

structure Transmit where
  destination : Nat
  size : Nat
  ecn : Option Nat
  segment_size : Option Nat
  src_ip : Option Nat
  deriving Repr, DecidableEq

/-- An entry of the outbound queue: a transmit descriptor plus its
payload bytes (`(Transmit, Bytes)` in the source). -/
abbrev Entry := Transmit × List Nat

/-! ## The segment-splitting loop

Both `Outbound::push` / `push_transmit` and the GRO fan-out in
`Socket::recv_all` run the same loop shape over a byte buffer:

  while !buffer.is_empty() { chunk = buffer.split_to(min(k, buffer.len())); ... }

With `k = 0` and a nonempty buffer this loop never terminates, so it is
embedded with explicit fuel: `none` means the loop did not finish
within the given number of iterations. -/

/-- One `split_to(min k len)` loop, with fuel bounding the number of
iterations.  Returns the list of chunks produced, in order, or `none`
if the fuel runs out before the buffer empties. -/
def chunkLoop (k : Nat) : Nat → List Nat → Option (List (List Nat))
  | _, [] => some []
  | 0, _ :: _ => none
  | fuel + 1, d :: rest =>
    (chunkLoop k fuel ((d :: rest).drop (min k (d :: rest).length))).map
      (fun cs => (d :: rest).take (min k (d :: rest).length) :: cs)

/-- The same loop for a positive chunk size `s + 1`, where termination
is structural: each iteration removes at least one byte.  The explicit
`min` of the source is dropped because `List.take` and `List.drop`
already clamp at the buffer length. -/
def chunksPos (s : Nat) : List Nat → List (List Nat)
  | [] => []
  | d :: rest => (d :: rest).take (s + 1) :: chunksPos s ((d :: rest).drop (s + 1))
termination_by l => l.length
decreasing_by
  simp only [List.length_drop, List.length_cons]
  omega

theorem chunksPos_nil (s : Nat) : chunksPos s [] = [] := by
  rw [chunksPos]

theorem chunksPos_cons (s : Nat) (d : Nat) (rest : List Nat) :
    chunksPos s (d :: rest) =
      (d :: rest).take (s + 1) :: chunksPos s ((d :: rest).drop (s + 1)) := by
  rw [chunksPos]

/-- With positive chunk size, fuel equal to the buffer length is enough
for the loop, and it produces exactly the `chunksPos` chunks. -/
theorem chunkLoop_pos (s : Nat) (data : List Nat) (fuel : Nat)
    (hfuel : data.length ≤ fuel) :
    chunkLoop (s + 1) fuel data = some (chunksPos s data) := by
  induction fuel using Nat.strong_induction_on generalizing data with
  | _ fuel ih =>
    match data, fuel with
    | [], _ => rw [chunkLoop, chunksPos]
    | d :: rest, 0 => simp at hfuel
    | d :: rest, fuel + 1 =>
      have htake : (d :: rest).take (min (s + 1) (d :: rest).length) =
          (d :: rest).take (s + 1) := by
        rcases Nat.le_total (s + 1) (d :: rest).length with h | h
        · rw [min_eq_left h]
        · rw [min_eq_right h, List.take_length]
          exact (List.take_of_length_le h).symm
      have hdropeq : (d :: rest).drop (min (s + 1) (d :: rest).length) =
          (d :: rest).drop (s + 1) := by
        rcases Nat.le_total (s + 1) (d :: rest).length with h | h
        · rw [min_eq_left h]
        · rw [min_eq_right h, List.drop_length]
          exact (List.drop_eq_nil_of_le h).symm
      have hdroplen : ((d :: rest).drop (s + 1)).length ≤ fuel := by
        simp only [List.length_drop, List.length_cons] at *
        omega
      rw [chunkLoop, chunksPos, hdropeq, htake,
        ih fuel (Nat.lt_succ_self fuel) _ hdroplen]
      rfl

/-- Concatenating the chunks recovers the original buffer. -/
theorem chunksPos_flatten (s : Nat) (data : List Nat) :
    (chunksPos s data).flatten = data := by
  induction data using chunksPos.induct s with
  | case1 => rw [chunksPos_nil]; rfl
  | case2 d rest ih =>
    rw [chunksPos_cons]
    simp only [List.flatten_cons, ih]
    exact List.take_append_drop _ _

/-- Every chunk is nonempty and no longer than the chunk size. -/
theorem chunksPos_length_le (s : Nat) (data : List Nat) :
    ∀ c ∈ chunksPos s data, 0 < c.length ∧ c.length ≤ s + 1 := by
  induction data using chunksPos.induct s with
  | case1 => intro c hc; rw [chunksPos_nil] at hc; simp at hc
  | case2 d rest ih =>
    intro c hc
    rw [chunksPos_cons] at hc
    rcases List.mem_cons.mp hc with h | h
    · subst h
      refine ⟨by simp, ?_⟩
      simp
    · exact ih c h

/-- All chunks except possibly the last are full. -/
theorem chunksPos_dropLast_length (s : Nat) (data : List Nat) :
    ∀ c ∈ (chunksPos s data).dropLast, c.length = s + 1 := by
  induction data using chunksPos.induct s with
  | case1 => intro c hc; rw [chunksPos_nil] at hc; simp at hc
  | case2 d rest ih =>
    intro c hc
    rw [chunksPos_cons] at hc
    by_cases hnil : chunksPos s ((d :: rest).drop (s + 1)) = []
    · rw [hnil] at hc
      simp at hc
    · rw [List.dropLast_cons_of_ne_nil hnil] at hc
      rcases List.mem_cons.mp hc with h | h
      · subst h
        have hdrop : (d :: rest).drop (s + 1) ≠ [] := by
          intro hd
          rw [hd, chunksPos_nil] at hnil
          exact hnil rfl
        have hlen : s + 1 < (d :: rest).length := by
          by_contra hle
          push_neg at hle
          exact hdrop (List.drop_eq_nil_of_le hle)
        rw [List.length_take]
        exact min_eq_left (le_of_lt hlen)
      · exact ih c h

/-- The number of chunks is `⌈len / (s+1)⌉`. -/
theorem chunksPos_count (s : Nat) (data : List Nat) :
    (chunksPos s data).length = (data.length + s) / (s + 1) := by
  induction data using chunksPos.induct s with
  | case1 =>
    rw [chunksPos_nil]
    simp only [List.length_nil, Nat.zero_add]
    exact (Nat.div_eq_of_lt (by omega)).symm
  | case2 d rest ih =>
    rw [chunksPos_cons]
    simp only [List.length_cons, ih, List.length_drop, List.length_cons]
    by_cases h : rest.length + 1 ≤ s + 1
    · have e1 : rest.length + 1 - (s + 1) = 0 := by omega
      have e2 : (0 + s) / (s + 1) = 0 := Nat.div_eq_of_lt (by omega)
      have e3 : rest.length + 1 + s = rest.length + 1 * (s + 1) := by omega
      have e4 : (rest.length + 1 * (s + 1)) / (s + 1) =
          rest.length / (s + 1) + 1 := Nat.add_mul_div_right _ _ (by omega)
      have e5 : rest.length / (s + 1) = 0 := Nat.div_eq_of_lt (by omega)
      rw [e1, e2, e3, e4, e5]
    · push_neg at h
      have key : rest.length + 1 + s = (rest.length + 1 - (s + 1) + s) + 1 * (s + 1) := by
        omega
      conv_rhs => rw [key]
      rw [Nat.add_mul_div_right _ _ (Nat.succ_pos s)]

/-- The last chunk has length `len mod (s+1)` when that is nonzero, and
`s + 1` when the length divides evenly. -/
theorem chunksPos_getLast_length (s : Nat) (data : List Nat)
    (c : List Nat) (hc : (chunksPos s data).getLast? = some c) :
    c.length = if data.length % (s + 1) = 0 then s + 1 else data.length % (s + 1) := by
  induction data using chunksPos.induct s with
  | case1 => rw [chunksPos_nil] at hc; simp at hc
  | case2 d rest ih =>
    rw [chunksPos_cons] at hc
    by_cases hnil : chunksPos s ((d :: rest).drop (s + 1)) = []
    · rw [hnil] at hc
      simp only [List.getLast?_singleton, Option.some.injEq] at hc
      subst hc
      have hdrop : (d :: rest).drop (s + 1) = [] := by
        by_contra hd
        match hgot : (d :: rest).drop (s + 1) with
        | [] => exact hd hgot
        | x :: xs =>
          rw [hgot, chunksPos_cons] at hnil
          exact List.cons_ne_nil _ _ hnil
      have hlen : (d :: rest).length ≤ s + 1 := by
        by_contra hle
        push_neg at hle
        have hd : ((d :: rest).drop (s + 1)).length = (d :: rest).length - (s + 1) := by
          simp
        rw [hdrop] at hd
        simp only [List.length_nil] at hd
        omega
      rw [List.length_take]
      have hm : min (s + 1) (d :: rest).length = (d :: rest).length := min_eq_right hlen
      rw [hm]
      simp only [List.length_cons] at *
      by_cases heq : rest.length + 1 = s + 1
      · rw [heq]
        simp [Nat.mod_self]
      · have hlt : rest.length + 1 < s + 1 := by omega
        rw [Nat.mod_eq_of_lt hlt, if_neg (by omega)]
    · obtain ⟨y, ys, hys⟩ := List.exists_cons_of_ne_nil hnil
      rw [hys, List.getLast?_cons_cons] at hc
      have hdrop : (d :: rest).drop (s + 1) ≠ [] := by
        intro hd
        rw [hd, chunksPos_nil] at hnil
        exact hnil rfl
      have hlen : s + 1 < (d :: rest).length := by
        by_contra hle
        push_neg at hle
        exact hdrop (List.drop_eq_nil_of_le hle)
      have hrec := ih (by rw [hys]; exact hc)
      have hmod : ((d :: rest).drop (s + 1)).length % (s + 1) =
          (d :: rest).length % (s + 1) := by
        simp only [List.length_drop]
        conv_rhs => rw [show (d :: rest).length = (d :: rest).length - (s + 1) + (s + 1) by omega]
        rw [Nat.add_mod_right]
      rw [hmod] at hrec
      exact hrec

/-- With chunk size `0` and a nonempty buffer, the loop makes no
progress: no amount of fuel finishes it. -/
theorem chunkLoop_zero (fuel : Nat) (d : Nat) (rest : List Nat) :
    chunkLoop 0 fuel (d :: rest) = none := by
  induction fuel with
  | zero => rfl
  | succ fuel ih =>
    rw [chunkLoop]
    have hm : min 0 (d :: rest).length = 0 := by omega
    rw [hm, List.drop_zero, ih]
    rfl

/-! ## Outbound queue (`Outbound::push` in outbound.rs, `push_transmit`
in server.rs; the two are textually identical) -/

/-- The sub-transmit created for one GSO segment: same destination, ECN
and source IP, `segment_size` cleared, `size` set to the slice length. -/
def subTransmit (t : Transmit) (contents : List Nat) : Transmit :=
  { destination := t.destination
    size := contents.length
    ecn := t.ecn
    segment_size := none
    src_ip := t.src_ip }

/-- Embedding of `push_transmit(transmit, buf, outbound)`.  Returns the
new outbound queue and the scratch buffer after `buf.clear()`, or
`none` when the source panics (`transmit.size > buf.len()`) or the
splitting loop diverges (`segment_size = 0`, which fuel
`buffer.length` can never finish). -/
def push_transmit (t : Transmit) (buf : List Nat) (outbound : List Entry) :
    Option (List Entry × List Nat) :=
  if t.size ≤ buf.length then
    let buffer := buf.take t.size
    match t.segment_size with
    | none => some (outbound ++ [(t, buffer)], [])
    | some segment_size =>
      (chunkLoop segment_size buffer.length buffer).map
        (fun cs => (outbound ++ cs.map (fun c => (subTransmit t c, c)), []))
  else
    none

/-- C1: pushing a `Transmit` with `segment_size = none` enqueues exactly
one entry with the first `size` scratch bytes unchanged; with
`segment_size = s ≥ 1` it enqueues the contiguous `min (s, remaining)`
slices in order as entries with `segment_size = none` and `size` equal
to the slice length; every enqueued entry has `segment_size = none`,
the concatenation of the split payloads equals the pre-split buffer,
and the scratch buffer is empty when push returns. -/
theorem claim_C1_outbound_push (t : Transmit) (buf : List Nat) (outbound : List Entry)
    (hsize : t.size ≤ buf.length)
    (hseg : t.segment_size = none ∨ ∃ s, t.segment_size = some s ∧ 1 ≤ s) :
    ∃ entries,
      push_transmit t buf outbound = some (outbound ++ entries, []) ∧
      (∀ e ∈ entries, e.1.segment_size = none) ∧
      (entries.map Prod.snd).flatten = buf.take t.size ∧
      (t.segment_size = none → entries = [(t, buf.take t.size)]) ∧
      (∀ s, t.segment_size = some s →
        (∀ e ∈ entries, e.1.size = e.2.length ∧ 0 < e.2.length ∧ e.2.length ≤ s) ∧
        (∀ p ∈ (entries.map Prod.snd).dropLast, p.length = s)) := by
  rcases hseg with hn | ⟨s, hs, hpos⟩
  · refine ⟨[(t, buf.take t.size)], ?_, ?_, ?_, ?_, ?_⟩
    · simp [push_transmit, hsize, hn]
    · intro e he
      rw [List.mem_singleton] at he
      subst he
      exact hn
    · simp
    · intro _
      rfl
    · intro s hcontra
      rw [hn] at hcontra
      exact absurd hcontra (Option.noConfusion)
  · obtain ⟨s', rfl⟩ : ∃ s', s = s' + 1 := ⟨s - 1, by omega⟩
    refine ⟨(chunksPos s' (buf.take t.size)).map (fun c => (subTransmit t c, c)),
      ?_, ?_, ?_, ?_, ?_⟩
    · simp only [push_transmit, if_pos hsize, hs]
      rw [chunkLoop_pos s' (buf.take t.size) (buf.take t.size).length (Nat.le_refl _)]
      rfl
    · intro e he
      simp only [List.mem_map] at he
      obtain ⟨c, _, rfl⟩ := he
      rfl
    · rw [List.map_map]
      have : (Prod.snd ∘ fun c => ((subTransmit t c, c) : Entry)) = id := rfl
      rw [this, List.map_id]
      exact chunksPos_flatten s' (buf.take t.size)
    · intro hcontra
      rw [hs] at hcontra
      exact absurd hcontra (Option.noConfusion)
    · intro s₀ hs₀
      rw [hs] at hs₀
      have hs₀' : s' + 1 = s₀ := Option.some_injective _ hs₀
      subst hs₀'
      constructor
      · intro e he
        simp only [List.mem_map] at he
        obtain ⟨c, hc, rfl⟩ := he
        have := chunksPos_length_le s' (buf.take t.size) c hc
        exact ⟨rfl, this.1, this.2⟩
      · intro p hp
        rw [List.map_map] at hp
        have hmapid : (Prod.snd ∘ fun c => ((subTransmit t c, c) : Entry)) = id := rfl
        rw [hmapid, List.map_id] at hp
        exact chunksPos_dropLast_length s' (buf.take t.size) p hp

/-- Witness for C1 at a concrete input: a 5-byte buffer with GSO stride
2 splits into slices of lengths 2, 2, 1. -/
theorem claim_C1_outbound_push_witness :
    (Transmit.mk 7 5 none (some 2) none).size ≤ [1, 2, 3, 4, 5, 6].length ∧
    ((Transmit.mk 7 5 none (some 2) none).segment_size = none ∨
      ∃ s, (Transmit.mk 7 5 none (some 2) none).segment_size = some s ∧ 1 ≤ s) ∧
    (∃ entries,
      push_transmit (Transmit.mk 7 5 none (some 2) none) [1, 2, 3, 4, 5, 6] [] =
        some ([] ++ entries, []) ∧
      (∀ e ∈ entries, e.1.segment_size = none) ∧
      (entries.map Prod.snd).flatten =
        [1, 2, 3, 4, 5, 6].take (Transmit.mk 7 5 none (some 2) none).size ∧
      ((Transmit.mk 7 5 none (some 2) none).segment_size = none →
        entries = [(Transmit.mk 7 5 none (some 2) none,
          [1, 2, 3, 4, 5, 6].take (Transmit.mk 7 5 none (some 2) none).size)]) ∧
      (∀ s, (Transmit.mk 7 5 none (some 2) none).segment_size = some s →
        (∀ e ∈ entries, e.1.size = e.2.length ∧ 0 < e.2.length ∧ e.2.length ≤ s) ∧
        (∀ p ∈ (entries.map Prod.snd).dropLast, p.length = s))) ∧
    push_transmit (Transmit.mk 7 5 none (some 2) none) [1, 2, 3, 4, 5, 6] [] =
      some ([(Transmit.mk 7 2 none none none, [1, 2]),
             (Transmit.mk 7 2 none none none, [3, 4]),
             (Transmit.mk 7 1 none none none, [5])], []) :=
  ⟨by decide, Or.inr ⟨2, rfl, by decide⟩,
    claim_C1_outbound_push (Transmit.mk 7 5 none (some 2) none) [1, 2, 3, 4, 5, 6] []
      (by decide) (Or.inr ⟨2, rfl, by decide⟩),
    by decide⟩

/-! ## GRO receive fan-out (`Socket::recv_all` in socket.rs)

For each filled slot the source takes `buf[0..meta.len]` and runs

  while !data.is_empty() { f(data.split_to(min(meta.stride, data.len())), meta) }

which is the same chunking loop, invoking the callback once per chunk
with the slot's metadata. -/

/-- quinn_udp::RecvMeta: address, destination IP, ECN, filled length,
GRO stride and receive timestamp. -/
structure RecvMeta where
  addr : Nat
  dst_ip : Option Nat
  ecn : Option Nat
  len : Nat
  stride : Nat
  timestamp : Option Nat
  deriving Repr, DecidableEq

/-- The per-slot dispatch of `recv_all`: the list of `(segment, meta)`
callback invocations, in order, or `none` if the splitting loop does
not finish within `fuel` iterations. -/
def recv_dispatch (meta : RecvMeta) (buf : List Nat) (fuel : Nat) :
    Option (List (List Nat × RecvMeta)) :=
  (chunkLoop meta.stride fuel (buf.take meta.len)).map
    (fun cs => cs.map (fun c => (c, meta)))

/-- C8: for a filled slot with `stride ≥ 1`, the dispatch splits the
first `len` bytes into `⌈len/stride⌉` segments, all of length `stride`
except a possibly shorter last one of length `len mod stride` when that
is nonzero, and invokes the callback once per segment in buffer order,
passing the same metadata each time. -/
theorem claim_C8_recv_dispatch (meta : RecvMeta) (buf : List Nat)
    (hstride : 1 ≤ meta.stride) (hlen : meta.len ≤ buf.length) :
    ∃ calls,
      recv_dispatch meta buf meta.len = some calls ∧
      calls.length = (meta.len + meta.stride - 1) / meta.stride ∧
      (∀ x ∈ calls, x.2 = meta) ∧
      (calls.map Prod.fst).flatten = buf.take meta.len ∧
      (∀ p ∈ (calls.map Prod.fst).dropLast, p.length = meta.stride) ∧
      (∀ c, (calls.map Prod.fst).getLast? = some c →
        c.length = if meta.len % meta.stride = 0 then meta.stride
          else meta.len % meta.stride) := by
  obtain ⟨s, hs⟩ : ∃ s, meta.stride = s + 1 := ⟨meta.stride - 1, by omega⟩
  have hdata : (buf.take meta.len).length = meta.len := by
    rw [List.length_take]
    omega
  have hloop : chunkLoop meta.stride meta.len (buf.take meta.len) =
      some (chunksPos s (buf.take meta.len)) := by
    rw [hs]
    exact chunkLoop_pos s (buf.take meta.len) meta.len (by omega)
  refine ⟨(chunksPos s (buf.take meta.len)).map (fun c => (c, meta)), ?_, ?_, ?_, ?_, ?_, ?_⟩
  · rw [recv_dispatch, hloop]
    rfl
  · rw [List.length_map, chunksPos_count, hdata, hs]
    have hnum : meta.len + (s + 1) - 1 = meta.len + s := by omega
    rw [hnum]
  · intro x hx
    simp only [List.mem_map] at hx
    obtain ⟨c, _, rfl⟩ := hx
    rfl
  · rw [List.map_map]
    have : (Prod.fst ∘ fun c => ((c, meta) : List Nat × RecvMeta)) = id := rfl
    rw [this, List.map_id]
    exact chunksPos_flatten s (buf.take meta.len)
  · intro p hp
    rw [List.map_map] at hp
    have hmapid : (Prod.fst ∘ fun c => ((c, meta) : List Nat × RecvMeta)) = id := rfl
    rw [hmapid, List.map_id] at hp
    rw [hs]
    exact chunksPos_dropLast_length s (buf.take meta.len) p hp
  · intro c hc
    rw [List.map_map] at hc
    have hmapid : (Prod.fst ∘ fun c => ((c, meta) : List Nat × RecvMeta)) = id := rfl
    rw [hmapid, List.map_id] at hc
    have := chunksPos_getLast_length s (buf.take meta.len) c hc
    rw [hdata] at this
    rw [hs]
    exact this

/-- Witness for C8 at the spec's example: `len = 3000`, `stride = 1200`
yields three calls of lengths 1200, 1200, 600 in order. -/
theorem claim_C8_recv_dispatch_witness :
    1 ≤ (RecvMeta.mk 0 none none 3000 1200 none).stride ∧
    (RecvMeta.mk 0 none none 3000 1200 none).len ≤ (List.replicate 3000 0).length ∧
    (∃ calls,
      recv_dispatch (RecvMeta.mk 0 none none 3000 1200 none) (List.replicate 3000 0) 3000 =
        some calls ∧
      calls.length = 3 ∧
      (∀ x ∈ calls, x.2 = RecvMeta.mk 0 none none 3000 1200 none) ∧
      (calls.map Prod.fst).flatten = (List.replicate 3000 0).take 3000 ∧
      (∀ p ∈ (calls.map Prod.fst).dropLast, p.length = 1200) ∧
      (∀ c, (calls.map Prod.fst).getLast? = some c → c.length = 600)) := by
  refine ⟨by decide, by rw [List.length_replicate], ?_⟩
  have h := claim_C8_recv_dispatch (RecvMeta.mk 0 none none 3000 1200 none)
    (List.replicate 3000 0) (by decide)
    (by rw [List.length_replicate])
  obtain ⟨calls, h1, h2, h3, h4, h5, h6⟩ := h
  refine ⟨calls, h1, ?_, h3, h4, h5, ?_⟩
  · rw [h2]
    decide
  · intro c hc
    have hlast := h6 c hc
    rw [hlast]
    decide

/-- C10: the inner segment-splitting loop of `recv_all` terminates for a
slot if and only if the stride is at least 1 or the filled length is
zero. -/
theorem claim_C10_recv_loop_termination (meta : RecvMeta) (buf : List Nat)
    (hlen : meta.len ≤ buf.length) :
    (∃ fuel, (recv_dispatch meta buf fuel).isSome) ↔
      (1 ≤ meta.stride ∨ meta.len = 0) := by
  have hdata : (buf.take meta.len).length = meta.len := by
    rw [List.length_take]
    omega
  constructor
  · intro ⟨fuel, hsome⟩
    by_contra hcon
    push_neg at hcon
    obtain ⟨hstride, hlen0⟩ := hcon
    have hstride0 : meta.stride = 0 := by omega
    have hne : buf.take meta.len ≠ [] := by
      intro h
      rw [h] at hdata
      simp only [List.length_nil] at hdata
      omega
    obtain ⟨d, rest, hd⟩ := List.exists_cons_of_ne_nil hne
    rw [recv_dispatch, hstride0, hd, chunkLoop_zero] at hsome
    simp at hsome
  · intro h
    rcases h with hstride | hlen0
    · obtain ⟨s, hs⟩ : ∃ s, meta.stride = s + 1 := ⟨meta.stride - 1, by omega⟩
      refine ⟨(buf.take meta.len).length, ?_⟩
      rw [recv_dispatch, hs, chunkLoop_pos s _ _ (Nat.le_refl _)]
      rfl
    · refine ⟨0, ?_⟩
      rw [recv_dispatch]
      have : buf.take meta.len = [] := by
        rw [hlen0]
        exact List.take_zero buf
      rw [this]
      rfl

/-- Witness for C10: both directions at concrete slots — a stride-2 slot
terminates, and the claim marks a stride-0 nonempty slot correctly. -/
theorem claim_C10_recv_loop_termination_witness :
    (RecvMeta.mk 0 none none 3 2 none).len ≤ [9, 9, 9].length ∧
    ((∃ fuel, (recv_dispatch (RecvMeta.mk 0 none none 3 2 none) [9, 9, 9] fuel).isSome) ↔
      (1 ≤ (RecvMeta.mk 0 none none 3 2 none).stride ∨
        (RecvMeta.mk 0 none none 3 2 none).len = 0)) :=
  ⟨by decide,
    claim_C10_recv_loop_termination (RecvMeta.mk 0 none none 3 2 none) [9, 9, 9] (by decide)⟩

/-! ## QUIC variable-length integer coding (quinn_proto::VarInt)

The session id is carried as a QUIC varint: the top two bits of the
first byte give the total width (1, 2, 4 or 8 bytes, i.e. `2^tag`), the
remaining 6 + 8·(width−1) bits the value, big-endian.  This is the
external `coding::Codec` interface the repository calls into; it is
embedded here because `recv_datagram` and `Completed::new` depend on
it. -/

/-- Big-endian fixed-width byte encoding of a number. -/
def toBytesBE : Nat → Nat → List Nat
  | 0, _ => []
  | n + 1, v => toBytesBE n (v / 256) ++ [v % 256]

theorem toBytesBE_length (n v : Nat) : (toBytesBE n v).length = n := by
  induction n generalizing v with
  | zero => rfl
  | succ n ih => simp [toBytesBE, ih]

/-- VarInt::encode: one byte below 2^6, two below 2^14, four below
2^30, eight below 2^62; larger values are unrepresentable (`none`). -/
def varIntEncode (v : Nat) : Option (List Nat) :=
  if v < 64 then some [v]
  else if v < 16384 then some (toBytesBE 2 (16384 + v))
  else if v < 1073741824 then some (toBytesBE 4 (2 * 1073741824 + v))
  else if v < 4611686018427387904 then some (toBytesBE 8 (3 * 4611686018427387904 + v))
  else none

/-- VarInt::decode on a byte sequence: reads the tag from the first
byte, then `2^tag - 1` further bytes, returning the value and the
remaining bytes, or `none` (`UnexpectedEnd`) if the input is too
short. -/
def varIntDecode (l : List Nat) : Option (Nat × List Nat) :=
  match l with
  | [] => none
  | b :: rest =>
    let extra := 2 ^ (b / 64) - 1
    if rest.length < extra then none
    else some ((rest.take extra).foldl (fun acc byte => acc * 256 + byte) (b % 64),
      rest.drop extra)

/-! ## Completed state (`Completed::new` in webtransport/request/mod.rs)

`Completed::new` varint-encodes the accepted CONNECT stream's id into
`datagram_header` and debug-asserts that the encoding is exactly one
byte long. -/

structure Completed where
  session_id : Nat
  datagram_header : List Nat
  deriving Repr, DecidableEq

/-- Embedding of `Completed::new`: the header is the varint encoding of
the session id (`none` only for ids outside the varint range, which
`VarInt::from` rules out). -/
def Completed.new (session_id : Nat) : Option Completed :=
  (varIntEncode session_id).map (fun header => ⟨session_id, header⟩)

/-- Modelled from the spec: the CONNECT sub-state "accepts ONE
bidirectional stream" and "its stream identifier becomes the session
id".  QUIC assigns client-initiated bidirectional streams the ids
`4·n` in acceptance order, so the single accepted CONNECT stream is the
first one, with id `4·0 = 0`.  The QUIC stream-id assignment lives in
the external quinn_proto crate, not under src/. -/
def clientBidiStreamId (n : Nat) : Nat := 4 * n

/-- The session id reachable through `Completed::new`: the id of the
first accepted client-initiated bidirectional stream. -/
def connectSessionId : Nat := clientBidiStreamId 0

/-- C9: the debug assertion in `Completed::new` — the varint encoding
of the session id is exactly one byte — holds exactly for session ids
below 64, and the reachable session id (the first accepted
client-initiated bidirectional stream) satisfies it. -/
theorem claim_C9_completed_header_one_byte :
    (∀ v, ((varIntEncode v).map List.length = some 1) ↔ v < 64) ∧
    (∀ c, Completed.new connectSessionId = some c → c.datagram_header.length = 1) := by
  constructor
  · intro v
    constructor
    · intro h1
      by_contra hge
      push_neg at hge
      rw [varIntEncode, if_neg (by omega)] at h1
      by_cases h2 : v < 16384
      · rw [if_pos h2] at h1
        simp [toBytesBE_length] at h1
      · rw [if_neg h2] at h1
        by_cases h3 : v < 1073741824
        · rw [if_pos h3] at h1
          simp [toBytesBE_length] at h1
        · rw [if_neg h3] at h1
          by_cases h4 : v < 4611686018427387904
          · rw [if_pos h4] at h1
            simp [toBytesBE_length] at h1
          · rw [if_neg h4] at h1
            simp at h1
    · intro hlt
      rw [varIntEncode, if_pos hlt]
      rfl
  · intro c hc
    have : Completed.new connectSessionId = some ⟨0, [0]⟩ := rfl
    rw [this] at hc
    have hceq := Option.some_injective _ hc
    rw [← hceq]
    rfl

/-- Witness for C9: the reachable session id 0 encodes to the one-byte
header `[0]`. -/
theorem claim_C9_completed_header_one_byte_witness :
    Completed.new connectSessionId = some ⟨0, [0]⟩ ∧
    (∀ c, Completed.new connectSessionId = some c → c.datagram_header.length = 1) :=
  ⟨by decide, claim_C9_completed_header_one_byte.2⟩

/-! ## WebTransport session (`Session` in session.rs)

`Session` pairs a quinn `Connection` with the WT handshake `Request`.
Only the parts of the `Connection` that the datagram API touches are
modelled: the queue of received QUIC datagrams (`datagrams().recv()`),
the maximum datagram size (`datagrams().max_size()`), and the record of
`datagrams().send(bytes, drop_on_full)` calls. -/

/-- The errors of webtransport/error.rs (payloads of the transport
error variants are irrelevant here and dropped). -/
inductive WebTransportError where
  | unexpectedEnd
  | unexpectedSessionId
  | webTransportUnsupported
  | webTransportNotConnected
  | notReadyToRespond
  | readError
  | writeError
  | sendDatagramError
  | settingsError
  | connectError
  deriving Repr, DecidableEq

/-- The `Request` handshake state: Settings → Connect → Response →
Completed. -/
inductive Request where
  | settings
  | connect
  | response
  | completed (c : Completed)
  deriving Repr, DecidableEq

/-- Embedding of `Request::completed()`: the `Completed` payload when
the machine has reached its final state. -/
def Request.completedOpt : Request → Option Completed
  | .completed c => some c
  | _ => none

/-- The slice of quinn `Connection` state the session datagram API
uses. -/
structure Connection where
  maxDatagramSize : Option Nat
  recvQueue : List (List Nat)
  sentDatagrams : List (List Nat × Bool)
  deriving Repr, DecidableEq

structure Session where
  inner : Connection
  request : Request
  deriving Repr, DecidableEq

/-- Embedding of `Session::recv_datagram`: pop one queued QUIC datagram
(`Ok(None)` if none), require the `Completed` state, decode the leading
varint, compare it with our session id and return the remainder.
Returns the result together with the session state afterwards. -/
def recv_datagram (s : Session) :
    Except WebTransportError (Option (List Nat)) × Session :=
  match s.inner.recvQueue with
  | [] => (.ok none, s)
  | bytes :: rest =>
    let s' : Session := { s with inner := { s.inner with recvQueue := rest } }
    match s.request.completedOpt with
    | none => (.error .webTransportNotConnected, s')
    | some completed =>
      match varIntDecode bytes with
      | none => (.error .unexpectedEnd, s')
      | some (v, remainder) =>
        if v = completed.session_id then (.ok (some remainder), s')
        else (.error .unexpectedSessionId, s')

/-- Embedding of `Session::send_datagram`.  The caller's `fill` closure
is modelled as a function from the zeroed tail slice to the number of
bytes written and the slice contents afterwards.  `none` models a
panic (header longer than the buffer, slice length changed, or
`split_to` out of bounds — all impossible for real Rust closures). -/
def send_datagram (s : Session) (fill : List Nat → Nat × List Nat) :
    Option (Except WebTransportError Unit × Session) :=
  match s.request.completedOpt with
  | none => some (.error .webTransportNotConnected, s)
  | some completed =>
    match s.inner.maxDatagramSize with
    | none => some (.error .sendDatagramError, s)
    | some max_size =>
      let header := completed.datagram_header
      if header.length ≤ max_size then
        let rest0 : List Nat := List.replicate (max_size - header.length) 0
        let written := (fill rest0).1
        let filled := (fill rest0).2
        if filled.length = rest0.length ∧ header.length + written ≤ max_size then
          some (.ok (), { s with inner := { s.inner with sentDatagrams :=
            s.inner.sentDatagrams ++
              [((header ++ filled).take (header.length + written), true)] } })
        else none
      else none

/-- C2: for a session whose request is Completed, `send_datagram(fill)`
builds a buffer of the connection's max datagram size, copies
`datagram_header` into its first bytes, lets `fill` write into the
remainder, trims to `header_len + written`, and sends the result with
`drop_on_full = true` — so every outgoing WT datagram starts with
exactly `datagram_header`.  If the request is not Completed it fails
with WebTransportNotConnected and sends nothing. -/
theorem claim_C2_send_datagram (s : Session) (fill : List Nat → Nat × List Nat) :
    (∀ c max_size, s.request.completedOpt = some c →
      s.inner.maxDatagramSize = some max_size →
      c.datagram_header.length ≤ max_size →
      (∀ r, (fill r).1 ≤ r.length ∧ (fill r).2.length = r.length) →
      ∃ bytes,
        send_datagram s fill = some (.ok (), { s with inner := { s.inner with
          sentDatagrams := s.inner.sentDatagrams ++ [(bytes, true)] } }) ∧
        bytes = c.datagram_header ++
          ((fill (List.replicate (max_size - c.datagram_header.length) 0)).2).take
            ((fill (List.replicate (max_size - c.datagram_header.length) 0)).1) ∧
        bytes.take c.datagram_header.length = c.datagram_header ∧
        bytes.length = c.datagram_header.length +
          (fill (List.replicate (max_size - c.datagram_header.length) 0)).1) ∧
    (s.request.completedOpt = none →
      send_datagram s fill = some (.error .webTransportNotConnected, s)) := by
  constructor
  · intro c max_size hc hmax hhead hfill
    rw [send_datagram, hc, hmax]
    simp only [if_pos hhead]
    set rest0 : List Nat := List.replicate (max_size - c.datagram_header.length) 0 with hrest0
    have hfill1 := (hfill rest0).1
    have hfill2 := (hfill rest0).2
    have hrest0len : rest0.length = max_size - c.datagram_header.length := by
      rw [hrest0, List.length_replicate]
    have hcond : (fill rest0).2.length = rest0.length ∧
        c.datagram_header.length + (fill rest0).1 ≤ max_size := by
      refine ⟨hfill2, ?_⟩
      omega
    rw [if_pos hcond]
    refine ⟨(c.datagram_header ++ (fill rest0).2).take
      (c.datagram_header.length + (fill rest0).1), rfl, ?_, ?_, ?_⟩
    · rw [List.take_append]
    · rw [List.take_take]
      have hm : min c.datagram_header.length
          (c.datagram_header.length + (fill rest0).1) = c.datagram_header.length := by
        omega
      rw [hm]
      exact List.take_left _ _
    · rw [List.length_take, List.length_append]
      omega
  · intro hnone
    rw [send_datagram, hnone]

/-- Witness for C2 at a concrete completed session (max size 4, header
`[0]`, fill writing two 7-bytes): the sent datagram is `[0, 7, 7]`. -/
theorem claim_C2_send_datagram_witness :
    (∃ bytes,
      send_datagram
        (Session.mk (Connection.mk (some 4) [] []) (Request.completed ⟨0, [0]⟩))
        (fun r => (min 2 r.length, r.map (fun _ => 7))) =
        some (.ok (), { Session.mk (Connection.mk (some 4) [] [])
            (Request.completed ⟨0, [0]⟩) with
          inner := { Connection.mk (some 4) [] [] with
            sentDatagrams := [] ++ [(bytes, true)] } }) ∧
      bytes = ([0] : List Nat) ++
        (((fun (r : List Nat) => (min 2 r.length, r.map (fun _ => 7))) (List.replicate (4 - 1) 0)).2).take
          (((fun (r : List Nat) => (min 2 r.length, r.map (fun _ => 7))) (List.replicate (4 - 1) 0)).1) ∧
      bytes.take 1 = [0] ∧
      bytes.length = 1 + 2) ∧
    send_datagram
      (Session.mk (Connection.mk (some 4) [] []) (Request.completed ⟨0, [0]⟩))
      (fun r => (min 2 r.length, r.map (fun _ => 7))) =
      some (.ok (), Session.mk (Connection.mk (some 4) [] [([0, 7, 7], true)])
        (Request.completed ⟨0, [0]⟩)) := by
  constructor
  · exact (claim_C2_send_datagram
      (Session.mk (Connection.mk (some 4) [] []) (Request.completed ⟨0, [0]⟩))
      (fun r => (min 2 r.length, r.map (fun _ => 7)))).1 ⟨0, [0]⟩ 4 rfl rfl (by decide)
      (fun r => ⟨min_le_right 2 r.length, by simp⟩)
  · rfl

/-- C3: `recv_datagram` returns Ok(None) when the queue is empty; with
a queued datagram it fails with WebTransportNotConnected unless the
request is Completed, fails with UnexpectedSessionId when the leading
varint differs from the session id, and otherwise returns the bytes
after the varint; the request state is preserved by every call, so
after an error a subsequent correctly-prefixed datagram succeeds. -/
theorem claim_C3_recv_datagram (s : Session) :
    (s.inner.recvQueue = [] → recv_datagram s = (.ok none, s)) ∧
    (∀ d rest, s.inner.recvQueue = d :: rest →
      (recv_datagram s).2 =
        { s with inner := { s.inner with recvQueue := rest } } ∧
      (s.request.completedOpt = none →
        (recv_datagram s).1 = .error .webTransportNotConnected) ∧
      (∀ c, s.request.completedOpt = some c →
        ∀ v remainder, varIntDecode d = some (v, remainder) →
          (v ≠ c.session_id →
            (recv_datagram s).1 = .error .unexpectedSessionId) ∧
          (v = c.session_id →
            (recv_datagram s).1 = .ok (some remainder)))) ∧
    (recv_datagram s).2.request = s.request ∧
    (∀ e, (recv_datagram s).1 = .error e →
      ∀ c d' rest', s.request.completedOpt = some c →
        (recv_datagram s).2.inner.recvQueue = d' :: rest' →
        ∀ r, varIntDecode d' = some (c.session_id, r) →
          (recv_datagram (recv_datagram s).2).1 = .ok (some r)) := by
  have hmain : ∀ t : Session, ∀ d rest, t.inner.recvQueue = d :: rest →
      ∀ c, t.request.completedOpt = some c →
      ∀ v remainder, varIntDecode d = some (v, remainder) →
      recv_datagram t =
        (if v = c.session_id then .ok (some remainder)
          else .error .unexpectedSessionId,
          { t with inner := { t.inner with recvQueue := rest } }) := by
    intro t d rest hq c hc v remainder hdec
    rw [recv_datagram]
    rw [hq]
    simp only [hc, hdec]
    split <;> rfl
  refine ⟨?_, ?_, ?_, ?_⟩
  · intro hq
    rw [recv_datagram, hq]
  · intro d rest hq
    refine ⟨?_, ?_, ?_⟩
    · rw [recv_datagram, hq]
      rcases hreq : s.request.completedOpt with _ | c
      · simp only [hreq]
      · simp only [hreq]
        rcases hdec : varIntDecode d with _ | ⟨v, remainder⟩
        · simp only [hdec]
        · simp only [hdec]
          split <;> rfl
    · intro hnone
      rw [recv_datagram, hq]
      simp only [hnone]
    · intro c hc v remainder hdec
      constructor
      · intro hne
        rw [hmain s d rest hq c hc v remainder hdec]
        simp only [if_neg hne]
      · intro heq
        rw [hmain s d rest hq c hc v remainder hdec]
        simp only [if_pos heq]
  · rcases hq : s.inner.recvQueue with _ | ⟨d, rest⟩
    · rw [recv_datagram, hq]
    · rw [recv_datagram, hq]
      rcases hreq : s.request.completedOpt with _ | c
      · simp only [hreq]
      · simp only [hreq]
        rcases hdec : varIntDecode d with _ | ⟨v, remainder⟩
        · simp only [hdec]
        · simp only [hdec]
          split <;> rfl
  · intro e herr c d' rest' hc hq' r hdec'
    have hreq2 : (recv_datagram s).2.request = s.request := by
      rcases hq : s.inner.recvQueue with _ | ⟨d, rest⟩
      · rw [recv_datagram, hq]
      · rw [recv_datagram, hq]
        rcases hreq : s.request.completedOpt with _ | c₀
        · simp only [hreq]
        · simp only [hreq]
          rcases hdec : varIntDecode d with _ | ⟨v, remainder⟩
          · simp only [hdec]
          · simp only [hdec]
            split <;> rfl
    have hc2 : (recv_datagram s).2.request.completedOpt = some c := by
      rw [hreq2]
      exact hc
    rw [hmain (recv_datagram s).2 d' rest' hq' c hc2 c.session_id r hdec']
    simp

/-- Witness for C3 at concrete sessions: a queued datagram `[4, 9]`
against session id 0 is rejected with UnexpectedSessionId, the request
stays Completed, and the subsequent datagram `[0, 5]` succeeds with
remainder `[5]`. -/
theorem claim_C3_recv_datagram_witness :
    (Session.mk (Connection.mk none [[4, 9], [0, 5]] [])
        (Request.completed ⟨0, [0]⟩)).inner.recvQueue = [4, 9] :: [[0, 5]] ∧
    ((recv_datagram (Session.mk (Connection.mk none [[4, 9], [0, 5]] [])
        (Request.completed ⟨0, [0]⟩))).1 = .error .unexpectedSessionId) ∧
    (recv_datagram (Session.mk (Connection.mk none [[4, 9], [0, 5]] [])
        (Request.completed ⟨0, [0]⟩))).2.request =
      Request.completed ⟨0, [0]⟩ ∧
    (recv_datagram (recv_datagram (Session.mk (Connection.mk none [[4, 9], [0, 5]] [])
        (Request.completed ⟨0, [0]⟩))).2).1 = .ok (some [5]) := by
  have h := claim_C3_recv_datagram
    (Session.mk (Connection.mk none [[4, 9], [0, 5]] []) (Request.completed ⟨0, [0]⟩))
  obtain ⟨-, h2, h3, h4⟩ := h
  have h2' := h2 [4, 9] [[0, 5]] rfl
  obtain ⟨hpop, -, hcases⟩ := h2'
  have hrej := (hcases ⟨0, [0]⟩ rfl 4 [9] (by decide)).1 (by decide)
  refine ⟨rfl, hrej, by rw [h3], ?_⟩
  exact h4 .unexpectedSessionId hrej ⟨0, [0]⟩ [0, 5] [] rfl
    (by rw [hpop]) [5] (by decide)

/-! ## Endpoint-event drain (`Server::handle_process` in server.rs)

After pumping each connection, the server drains the collected
`(ConnectionHandle, EndpointEvent)` pairs: for each pair it removes the
connection from the map when the event is drained, then hands the event
to `endpoint.handle_event`; a returned `ConnectionEvent` (asserted to
never happen for drained events) is delivered to the connection if it
still exists.  The endpoint's `handle_event` is external quinn_proto
code modelled as an oracle `resp`; the spec states that a drained event
never yields a downstream event. -/

structure EndpointEvent where
  isDrained : Bool
  tag : Nat
  deriving Repr, DecidableEq

/-- The per-connection state touched by the drain loop: the connection
events delivered via `connection.handle_event`. -/
structure ConnEvents where
  delivered : List Nat
  deriving Repr, DecidableEq

/-- Deliver a returned `ConnectionEvent` to the handle's connection, if
it is still in the map (`connections.get_mut`). -/
def deliverEvent (conns : List (Nat × ConnEvents)) (ch : Nat) (ev : Nat) :
    List (Nat × ConnEvents) :=
  conns.map (fun p => if p.1 = ch then (p.1, ⟨p.2.delivered ++ [ev]⟩) else p)

/-- One iteration of the drain loop.  The `Bool` component tracks the
`debug_assert!(!is_drained, ...)`: it stays `true` as long as the
assertion has never fired. -/
def drainStep (resp : Nat → EndpointEvent → Option Nat) :
    (List (Nat × ConnEvents) × Bool) → (Nat × EndpointEvent) →
    (List (Nat × ConnEvents) × Bool)
  | (conns, ok), (ch, ev) =>
    let conns1 := if ev.isDrained then conns.filter (fun p => p.1 != ch) else conns
    match resp ch ev with
    | some ev2 => (deliverEvent conns1 ch ev2, ok && !ev.isDrained)
    | none => (conns1, ok)

/-- The full drain of `endpoint_events` at the end of
`Server::handle_process`. -/
def drainEndpointEvents (resp : Nat → EndpointEvent → Option Nat)
    (conns : List (Nat × ConnEvents)) (events : List (Nat × EndpointEvent)) :
    List (Nat × ConnEvents) × Bool :=
  events.foldl (drainStep resp) (conns, true)

theorem deliverEvent_key_mem (conns : List (Nat × ConnEvents)) (ch₀ ev ch : Nat) :
    (∃ c, (ch, c) ∈ deliverEvent conns ch₀ ev) ↔ (∃ c, (ch, c) ∈ conns) := by
  constructor
  · intro ⟨c, hc⟩
    rw [deliverEvent] at hc
    obtain ⟨p, hp, heq⟩ := List.mem_map.mp hc
    by_cases hch : p.1 = ch₀
    · rw [if_pos hch] at heq
      obtain ⟨h1, -⟩ := Prod.mk.injEq .. ▸ heq
      exact ⟨p.2, by rw [← h1]; exact hp⟩
    · rw [if_neg hch] at heq
      exact ⟨c, heq ▸ hp⟩
  · intro ⟨c, hc⟩
    by_cases hch : ch = ch₀
    · refine ⟨⟨c.delivered ++ [ev]⟩, ?_⟩
      rw [deliverEvent]
      have := List.mem_map_of_mem
        (fun p : Nat × ConnEvents =>
          if p.1 = ch₀ then (p.1, (⟨p.2.delivered ++ [ev]⟩ : ConnEvents)) else p) hc
      simpa [hch] using this
    · refine ⟨c, ?_⟩
      rw [deliverEvent]
      have := List.mem_map_of_mem
        (fun p : Nat × ConnEvents =>
          if p.1 = ch₀ then (p.1, (⟨p.2.delivered ++ [ev]⟩ : ConnEvents)) else p) hc
      simpa [hch] using this

theorem drain_fold_snd (resp : Nat → EndpointEvent → Option Nat)
    (hresp : ∀ ch ev, ev.isDrained = true → resp ch ev = none) :
    ∀ (events : List (Nat × EndpointEvent)) (conns : List (Nat × ConnEvents)) (ok : Bool),
      (events.foldl (drainStep resp) (conns, ok)).2 = ok := by
  intro events
  induction events with
  | nil => intro conns ok; rfl
  | cons pair rest ih =>
    intro conns ok
    obtain ⟨ch, ev⟩ := pair
    rw [List.foldl_cons]
    rcases hev : ev.isDrained with _ | _
    · rcases hr : resp ch ev with _ | ev2
      · simp only [drainStep, hev, hr]
        exact ih _ ok
      · simp only [drainStep, hev, hr]
        have : (ok && !false) = ok := by simp
        rw [this]
        exact ih _ ok
    · have hr := hresp ch ev hev
      simp only [drainStep, hev, hr]
      exact ih _ ok

theorem drain_fold_mem (resp : Nat → EndpointEvent → Option Nat)
    (hresp : ∀ ch ev, ev.isDrained = true → resp ch ev = none) :
    ∀ (events : List (Nat × EndpointEvent)) (conns : List (Nat × ConnEvents))
      (ok : Bool) (ch : Nat),
      (∃ c, (ch, c) ∈ (events.foldl (drainStep resp) (conns, ok)).1) ↔
        ((∃ c, (ch, c) ∈ conns) ∧ ∀ ev, (ch, ev) ∈ events → ev.isDrained = false) := by
  intro events
  induction events with
  | nil =>
    intro conns ok ch
    simp
  | cons pair rest ih =>
    intro conns ok ch
    obtain ⟨ch', ev⟩ := pair
    rw [List.foldl_cons]
    rcases hev : ev.isDrained with _ | _
    · have hstep : drainStep resp (conns, ok) (ch', ev) =
          (match resp ch' ev with
            | some ev2 => (deliverEvent conns ch' ev2, ok && !ev.isDrained)
            | none => (conns, ok)) := by
        simp [drainStep, hev]
      rcases hr : resp ch' ev with _ | ev2
      · rw [hstep, hr]
        rw [ih conns ok ch]
        constructor
        · intro ⟨hm, hrest⟩
          refine ⟨hm, ?_⟩
          intro ev₀ hev₀
          rcases List.mem_cons.mp hev₀ with h | h
          · obtain ⟨-, h2⟩ := Prod.mk.injEq .. ▸ h
            rw [h2]
            exact hev
          · exact hrest ev₀ h
        · intro ⟨hm, hall⟩
          exact ⟨hm, fun ev₀ h => hall ev₀ (List.mem_cons_of_mem _ h)⟩
      · rw [hstep, hr]
        rw [ih _ (ok && !ev.isDrained) ch, deliverEvent_key_mem]
        constructor
        · intro ⟨hm, hrest⟩
          refine ⟨hm, ?_⟩
          intro ev₀ hev₀
          rcases List.mem_cons.mp hev₀ with h | h
          · obtain ⟨-, h2⟩ := Prod.mk.injEq .. ▸ h
            rw [h2]
            exact hev
          · exact hrest ev₀ h
        · intro ⟨hm, hall⟩
          exact ⟨hm, fun ev₀ h => hall ev₀ (List.mem_cons_of_mem _ h)⟩
    · have hr := hresp ch' ev hev
      have hstep : drainStep resp (conns, ok) (ch', ev) =
          (conns.filter (fun p => p.1 != ch'), ok) := by
        simp [drainStep, hev, hr]
      rw [hstep, ih _ ok ch]
      have hfilter : (∃ c, (ch, c) ∈ conns.filter (fun p => p.1 != ch')) ↔
          ((∃ c, (ch, c) ∈ conns) ∧ ch ≠ ch') := by
        constructor
        · intro ⟨c, hc⟩
          rw [List.mem_filter] at hc
          refine ⟨⟨c, hc.1⟩, ?_⟩
          have := hc.2
          simp only [bne_iff_ne, ne_eq] at this
          exact this
        · intro ⟨⟨c, hc⟩, hne⟩
          refine ⟨c, ?_⟩
          rw [List.mem_filter]
          refine ⟨hc, ?_⟩
          simp only [bne_iff_ne, ne_eq]
          exact hne
      rw [hfilter]
      constructor
      · intro ⟨⟨hm, hne⟩, hrest⟩
        refine ⟨hm, ?_⟩
        intro ev₀ hev₀
        rcases List.mem_cons.mp hev₀ with h | h
        · obtain ⟨h1, -⟩ := Prod.mk.injEq .. ▸ h
          exact absurd h1 hne
        · exact hrest ev₀ h
      · intro ⟨hm, hall⟩
        have hne : ch ≠ ch' := by
          intro heq
          have := hall ev (by rw [heq]; exact List.mem_cons_self _ _)
          rw [this] at hev
          exact Bool.false_ne_true hev
        exact ⟨⟨hm, hne⟩, fun ev₀ h => hall ev₀ (List.mem_cons_of_mem _ h)⟩

/-- C4: during the endpoint-event drain, a connection is removed from
the map iff a drained event was delivered for its handle; every handle
whose drained event was processed is absent afterwards; and the
assertion that a drained event never yields a downstream
ConnectionEvent holds (`true` = never fired), given the endpoint
contract — modelled from the spec — that `handle_event` returns nothing
for drained events. -/
theorem claim_C4_endpoint_drain (resp : Nat → EndpointEvent → Option Nat)
    (conns : List (Nat × ConnEvents)) (events : List (Nat × EndpointEvent))
    (hresp : ∀ ch ev, ev.isDrained = true → resp ch ev = none) :
    (drainEndpointEvents resp conns events).2 = true ∧
    (∀ ch, (∃ c, (ch, c) ∈ (drainEndpointEvents resp conns events).1) ↔
      ((∃ c, (ch, c) ∈ conns) ∧ ∀ ev, (ch, ev) ∈ events → ev.isDrained = false)) ∧
    (∀ ch ev, (ch, ev) ∈ events → ev.isDrained = true →
      ¬∃ c, (ch, c) ∈ (drainEndpointEvents resp conns events).1) := by
  refine ⟨drain_fold_snd resp hresp events conns true, ?_, ?_⟩
  · intro ch
    exact drain_fold_mem resp hresp events conns true ch
  · intro ch ev hmem hdrained hex
    have := (drain_fold_mem resp hresp events conns true ch).mp hex
    have hfalse := this.2 ev hmem
    rw [hfalse] at hdrained
    exact Bool.false_ne_true hdrained

/-- Witness for C4: draining handle 0 out of a two-connection map
removes exactly handle 0, and the assertion flag stays true. -/
theorem claim_C4_endpoint_drain_witness :
    (∀ ch ev, ev.isDrained = true →
      (fun (_ : Nat) (ev : EndpointEvent) =>
        if ev.isDrained then none else some ev.tag) ch ev = none) ∧
    ((drainEndpointEvents
        (fun (_ : Nat) (ev : EndpointEvent) =>
          if ev.isDrained then none else some ev.tag)
        [(0, ⟨[]⟩), (1, ⟨[]⟩)] [(0, ⟨true, 5⟩)]).2 = true) ∧
    ¬(∃ c, (0, c) ∈ (drainEndpointEvents
        (fun (_ : Nat) (ev : EndpointEvent) =>
          if ev.isDrained then none else some ev.tag)
        [(0, ⟨[]⟩), (1, ⟨[]⟩)] [(0, ⟨true, 5⟩)]).1) ∧
    drainEndpointEvents
        (fun (_ : Nat) (ev : EndpointEvent) =>
          if ev.isDrained then none else some ev.tag)
        [(0, ⟨[]⟩), (1, ⟨[]⟩)] [(0, ⟨true, 5⟩)] = ([(1, ⟨[]⟩)], true) := by
  have hresp : ∀ ch ev, ev.isDrained = true →
      (fun (_ : Nat) (ev : EndpointEvent) =>
        if ev.isDrained then none else some ev.tag) ch ev = (none : Option Nat) := by
    intro ch ev h
    simp [h]
  have h := claim_C4_endpoint_drain
    (fun (_ : Nat) (ev : EndpointEvent) =>
      if ev.isDrained then none else some ev.tag)
    [(0, ⟨[]⟩), (1, ⟨[]⟩)] [(0, ⟨true, 5⟩)] hresp
  exact ⟨hresp, h.1, h.2.2 0 ⟨true, 5⟩ (List.mem_singleton.mpr rfl) rfl, by rfl⟩

/-! ## Transmit pump (`Session::handle_process` in session.rs and
`ConnectionWrapper::handle_process` in server.rs; identical loops)

  let mut transmit_ops = 0;
  loop {
    if let Some(transmit) = poll_transmit(now, MAX_DATAGRAMS, buf) { push; transmit_ops += 1 }
    else { transmit_ops = MAX_TRANSMIT_OPS }
    handle_timeout(now);
    if transmit_ops >= MAX_TRANSMIT_OPS { break }
  }

`poll_transmit` is external quinn code, modelled as an oracle `polls`
giving the result of the i-th call. -/

/-- The maximum number of datagrams a `poll_transmit` call may batch. -/
def MAX_DATAGRAMS : Nat := 10

/-- The maximum number of transmit loop iterations per connection. -/
def MAX_TRANSMIT_OPS : Nat := 3

/-- How many outbound entries `push_transmit` enqueues for a transmit:
one when unsegmented, `⌈size/s⌉` when split with stride `s`. -/
def transmitEntryCount (t : Transmit) : Nat :=
  match t.segment_size with
  | none => 1
  | some s => (t.size + s - 1) / s

/-- The transmit pump from call index `i` with counter `transmit_ops`.
Returns the transmits pushed (in order) and the number of loop
iterations, which equals both the number of `poll_transmit` calls made
from this point and the number of `handle_timeout(now)` calls (one per
iteration, after the poll). -/
def transmitPump (polls : Nat → Option Transmit) (i transmit_ops : Nat) :
    List Transmit × Nat :=
  match polls i with
  | some t =>
    if MAX_TRANSMIT_OPS ≤ transmit_ops + 1 then ([t], 1)
    else
      let r := transmitPump polls (i + 1) (transmit_ops + 1)
      (t :: r.1, r.2 + 1)
  | none => ([], 1)
termination_by MAX_TRANSMIT_OPS - transmit_ops
decreasing_by
  simp only [MAX_TRANSMIT_OPS] at *
  omega

theorem transmitPump_poll_none (polls : Nat → Option Transmit) (i ops : Nat)
    (hnone : polls i = none) : transmitPump polls i ops = ([], 1) := by
  rw [transmitPump, hnone]

theorem transmitPump_poll_some (polls : Nat → Option Transmit) (i ops : Nat)
    (t : Transmit) (hp : polls i = some t) :
    transmitPump polls i ops =
      if MAX_TRANSMIT_OPS ≤ ops + 1 then ([t], 1)
      else (t :: (transmitPump polls (i + 1) (ops + 1)).1,
        (transmitPump polls (i + 1) (ops + 1)).2 + 1) := by
  rw [transmitPump, hp]

theorem transmitPump_iter_bounds (polls : Nat → Option Transmit) :
    ∀ fuel i ops, MAX_TRANSMIT_OPS - ops ≤ fuel →
      1 ≤ (transmitPump polls i ops).2 ∧
      (transmitPump polls i ops).2 ≤ max (MAX_TRANSMIT_OPS - ops) 1 ∧
      (transmitPump polls i ops).1.length ≤ (transmitPump polls i ops).2 ∧
      (∀ t ∈ (transmitPump polls i ops).1, ∃ j, polls j = some t) := by
  intro fuel
  induction fuel with
  | zero =>
    intro i ops hfuel
    have hops : MAX_TRANSMIT_OPS ≤ ops := by omega
    rcases hp : polls i with _ | t
    · rw [transmitPump_poll_none polls i ops hp]
      simp
    · rw [transmitPump_poll_some polls i ops t hp, if_pos (by omega : MAX_TRANSMIT_OPS ≤ ops + 1)]
      refine ⟨by omega, by simp, by simp, ?_⟩
      intro t' ht'
      rw [List.mem_singleton] at ht'
      exact ⟨i, by rw [hp, ht']⟩
  | succ fuel ih =>
    intro i ops hfuel
    rcases hp : polls i with _ | t
    · rw [transmitPump_poll_none polls i ops hp]
      simp
    · rw [transmitPump_poll_some polls i ops t hp]
      by_cases hstop : MAX_TRANSMIT_OPS ≤ ops + 1
      · rw [if_pos hstop]
        refine ⟨by omega, by simp, by simp, ?_⟩
        intro t' ht'
        rw [List.mem_singleton] at ht'
        exact ⟨i, by rw [hp, ht']⟩
      · rw [if_neg hstop]
        have hrec := ih (i + 1) (ops + 1) (by omega)
        obtain ⟨h1, h2, h3, h4⟩ := hrec
        refine ⟨by omega, ?_, ?_, ?_⟩
        · simp only []
          have : MAX_TRANSMIT_OPS - (ops + 1) + 1 ≤ max (MAX_TRANSMIT_OPS - ops) 1 := by
            simp only [MAX_TRANSMIT_OPS] at *
            omega
          omega
        · simp only [List.length_cons]
          omega
        · intro t' ht'
          rcases List.mem_cons.mp ht' with h | h
          · exact ⟨i, by rw [hp, h]⟩
          · exact h4 t' h

/-- C5: the per-connection transmit pump always terminates within
`MAX_TRANSMIT_OPS = 3` iterations; it calls `poll_transmit` at most 3
times and, with the quinn contract (modelled from the spec) that each
poll batches at most `MAX_DATAGRAMS = 10` segments, enqueues at most 30
outbound segments; `handle_timeout(now)` runs once per iteration —
hence at least once per tick, including when nothing was transmitted —
and when `poll_transmit` yields nothing the counter jumps to the limit
and the loop exits right after that iteration's `handle_timeout`. -/
theorem claim_C5_transmit_pump (polls : Nat → Option Transmit)
    (hcap : ∀ i t, polls i = some t → transmitEntryCount t ≤ MAX_DATAGRAMS) :
    1 ≤ (transmitPump polls 0 0).2 ∧
    (transmitPump polls 0 0).2 ≤ MAX_TRANSMIT_OPS ∧
    (transmitPump polls 0 0).1.length ≤ MAX_TRANSMIT_OPS ∧
    ((transmitPump polls 0 0).1.map transmitEntryCount).sum ≤
      MAX_DATAGRAMS * MAX_TRANSMIT_OPS ∧
    (∀ i ops, polls i = none → transmitPump polls i ops = ([], 1)) := by
  have h := transmitPump_iter_bounds polls MAX_TRANSMIT_OPS 0 0 (by omega)
  obtain ⟨h1, h2, h3, h4⟩ := h
  have hmax : max (MAX_TRANSMIT_OPS - 0) 1 = MAX_TRANSMIT_OPS := by
    simp only [MAX_TRANSMIT_OPS]
    omega
  rw [hmax] at h2
  have hlen : (transmitPump polls 0 0).1.length ≤ MAX_TRANSMIT_OPS := le_trans h3 h2
  refine ⟨h1, h2, hlen, ?_, transmitPump_poll_none polls⟩
  have hbound : ∀ l : List Transmit, (∀ t ∈ l, transmitEntryCount t ≤ MAX_DATAGRAMS) →
      (l.map transmitEntryCount).sum ≤ MAX_DATAGRAMS * l.length := by
    intro l
    induction l with
    | nil => intro _; simp
    | cons x xs ih =>
      intro hall
      simp only [List.map_cons, List.sum_cons, List.length_cons]
      have hx := hall x (List.mem_cons_self x xs)
      have hxs := ih (fun t ht => hall t (List.mem_cons_of_mem x ht))
      have : MAX_DATAGRAMS * (xs.length + 1) =
          MAX_DATAGRAMS + MAX_DATAGRAMS * xs.length := by ring
      rw [this]
      omega
  have hall : ∀ t ∈ (transmitPump polls 0 0).1, transmitEntryCount t ≤ MAX_DATAGRAMS := by
    intro t ht
    obtain ⟨j, hj⟩ := h4 t ht
    exact hcap j t hj
  calc ((transmitPump polls 0 0).1.map transmitEntryCount).sum
      ≤ MAX_DATAGRAMS * (transmitPump polls 0 0).1.length := hbound _ hall
    _ ≤ MAX_DATAGRAMS * MAX_TRANSMIT_OPS :=
        Nat.mul_le_mul_left MAX_DATAGRAMS hlen

/-- Witness for C5 at a concrete oracle: a connection with unbounded
queued data (every poll yields a full 10-segment transmit) runs exactly
3 iterations and pushes 3 transmits of 10 segments each. -/
theorem claim_C5_transmit_pump_witness :
    (∀ i t, (fun (_ : Nat) => some (Transmit.mk 0 1200 none (some 120) none)) i = some t →
      transmitEntryCount t ≤ MAX_DATAGRAMS) ∧
    (1 ≤ (transmitPump (fun _ => some (Transmit.mk 0 1200 none (some 120) none)) 0 0).2 ∧
      (transmitPump (fun _ => some (Transmit.mk 0 1200 none (some 120) none)) 0 0).2 ≤
        MAX_TRANSMIT_OPS ∧
      (transmitPump (fun _ => some (Transmit.mk 0 1200 none (some 120) none)) 0 0).1.length ≤
        MAX_TRANSMIT_OPS ∧
      ((transmitPump (fun _ => some (Transmit.mk 0 1200 none (some 120) none)) 0 0).1.map
        transmitEntryCount).sum ≤ MAX_DATAGRAMS * MAX_TRANSMIT_OPS ∧
      (∀ i ops, (fun (_ : Nat) => some (Transmit.mk 0 1200 none (some 120) none)) i = none →
        transmitPump (fun _ => some (Transmit.mk 0 1200 none (some 120) none)) i ops =
          ([], 1))) := by
  have hcap : ∀ i t,
      (fun (_ : Nat) => some (Transmit.mk 0 1200 none (some 120) none)) i = some t →
      transmitEntryCount t ≤ MAX_DATAGRAMS := by
    intro i t ht
    have : t = Transmit.mk 0 1200 none (some 120) none := by
      exact (Option.some_injective _ ht).symm
    rw [this]
    decide
  exact ⟨hcap, claim_C5_transmit_pump
    (fun _ => some (Transmit.mk 0 1200 none (some 120) none)) hcap⟩

/-! ## Next-timeout computation

`Server::compute_next_timeout` in server_wtransport/src/server.rs folds
`poll_timeout` over all connections into a minimum `Option<Instant>`.
The simpler variant in server/src/main.rs additionally converts it to a
poll wait with `min.checked_duration_since(Instant::now())`, which is
`None` — wait forever — when the deadline already passed. -/

/-- One step of the `compute_next_timeout` fold: `*min = *min.min(timeout)`
when both are present. -/
def minFoldStep (mn t : Option Nat) : Option Nat :=
  match t with
  | some timeout =>
    match mn with
    | some m => some (min m timeout)
    | none => some timeout
  | none => mn

/-- The min-fold of `compute_next_timeout` over the connections'
`poll_timeout` values (server_wtransport variant, an `Option Instant`). -/
def compute_next_timeout (timeouts : List (Option Nat)) : Option Nat :=
  timeouts.foldl minFoldStep none

/-- `Instant::checked_duration_since`: `none` when `self < earlier`. -/
def checked_duration_since (d now : Nat) : Option Nat :=
  if now ≤ d then some (d - now) else none

/-- The simpler variant (server/src/main.rs): the min deadline turned
into the event loop's poll wait; `none` makes `poll` wait forever. -/
def compute_next_timeout_duration (timeouts : List (Option Nat)) (now : Nat) :
    Option Nat :=
  (compute_next_timeout timeouts).bind (fun m => checked_duration_since m now)

theorem minFoldStep_none (mn : Option Nat) : minFoldStep mn none = mn := rfl

theorem minFoldStep_some_none (x : Nat) : minFoldStep none (some x) = some x := rfl

theorem minFoldStep_some_some (a x : Nat) :
    minFoldStep (some a) (some x) = some (min a x) := rfl

theorem compute_next_timeout_fold_none :
    ∀ (ts : List (Option Nat)) (acc : Option Nat),
      (ts.foldl minFoldStep acc = none) ↔ (acc = none ∧ ∀ t ∈ ts, t = none) := by
  intro ts
  induction ts with
  | nil => intro acc; simp
  | cons t rest ih =>
    intro acc
    rw [List.foldl_cons]
    rcases t with _ | x
    · rw [minFoldStep_none, ih acc]
      constructor
      · rintro ⟨h1, h2⟩
        refine ⟨h1, ?_⟩
        intro t' ht'
        rcases List.mem_cons.mp ht' with h | h
        · rw [h]
        · exact h2 t' h
      · rintro ⟨h1, h2⟩
        exact ⟨h1, fun t' ht' => h2 t' (List.mem_cons_of_mem _ ht')⟩
    · rcases acc with _ | a
      · rw [minFoldStep_some_none, ih _]
        constructor
        · rintro ⟨h1, -⟩
          exact absurd h1 (Option.noConfusion)
        · rintro ⟨-, h2⟩
          have := h2 (some x) (List.mem_cons_self _ _)
          exact absurd this (Option.noConfusion)
      · rw [minFoldStep_some_some, ih _]
        constructor
        · rintro ⟨h1, -⟩
          exact absurd h1 (Option.noConfusion)
        · rintro ⟨h1, -⟩
          exact absurd h1 (Option.noConfusion)

theorem compute_next_timeout_fold_some :
    ∀ (ts : List (Option Nat)) (acc : Option Nat) (m : Nat),
      ts.foldl minFoldStep acc = some m →
      (some m ∈ ts ∨ acc = some m) ∧
      (∀ x, some x ∈ ts → m ≤ x) ∧
      (∀ a, acc = some a → m ≤ a) := by
  intro ts
  induction ts with
  | nil =>
    intro acc m hfold
    rw [List.foldl_nil] at hfold
    refine ⟨Or.inr hfold, ?_, ?_⟩
    · intro x hx
      simp at hx
    · intro a ha
      rw [ha] at hfold
      have := Option.some_injective _ hfold
      omega
  | cons t rest ih =>
    intro acc m hfold
    rw [List.foldl_cons] at hfold
    rcases t with _ | x
    · rw [minFoldStep_none] at hfold
      obtain ⟨h1, h2, h3⟩ := ih acc m hfold
      refine ⟨?_, ?_, h3⟩
      · rcases h1 with h | h
        · exact Or.inl (List.mem_cons_of_mem _ h)
        · exact Or.inr h
      · intro x hx
        rcases List.mem_cons.mp hx with h | h
        · exact absurd h.symm (Option.noConfusion)
        · exact h2 x h
    · rcases acc with _ | a
      · rw [minFoldStep_some_none] at hfold
        obtain ⟨h1, h2, h3⟩ := ih (some x) m hfold
        refine ⟨?_, ?_, ?_⟩
        · rcases h1 with h | h
          · exact Or.inl (List.mem_cons_of_mem _ h)
          · exact Or.inl (by rw [Option.some_injective _ h]; exact List.mem_cons_self _ _)
        · intro y hy
          rcases List.mem_cons.mp hy with h | h
          · have hxy := Option.some_injective _ h.symm
            rw [← hxy]
            exact h3 x rfl
          · exact h2 y h
        · intro a ha
          exact absurd ha (Option.noConfusion)
      · rw [minFoldStep_some_some] at hfold
        obtain ⟨h1, h2, h3⟩ := ih (some (min a x)) m hfold
        have hmle : m ≤ min a x := by
          rcases h1 with h | h
          · exact h3 (min a x) rfl
          · have := Option.some_injective _ h
            omega
        refine ⟨?_, ?_, ?_⟩
        · rcases h1 with h | h
          · exact Or.inl (List.mem_cons_of_mem _ h)
          · have hm := Option.some_injective _ h
            rcases Nat.le_total a x with hax | hax
            · exact Or.inr (by rw [← hm, min_eq_left hax])
            · exact Or.inl (by rw [← hm, min_eq_right hax]; exact List.mem_cons_self _ _)
        · intro y hy
          rcases List.mem_cons.mp hy with h | h
          · have hxy := Option.some_injective _ h.symm
            rw [← hxy]
            omega
          · exact h2 y h
        · intro a' ha'
          have := Option.some_injective _ ha'
          omega

/-- Counterexample to C6: with a single connection whose deadline (5)
is already past at `now = 10`, the claim demands a poll wait of
`max (0, 5 − 10) = 0`, but the code's
`checked_duration_since` yields `none` — the loop waits forever. -/
theorem claim_C6_next_timeout_counterexample :
    compute_next_timeout [some 5] = some 5 ∧
    compute_next_timeout_duration [some 5] 10 = none ∧
    compute_next_timeout_duration [some 5] 10 ≠ some (max 0 (5 - 10)) := by
  refine ⟨rfl, rfl, ?_⟩
  intro h
  exact Option.noConfusion h

/-- C6 (amended): `compute_next_timeout` returns the minimum of
`poll_timeout` over all connections (`none` when no connection has a
deadline); the event loop's poll wait is `deadline − now` when the
minimum deadline has not yet passed, but `none` — wait forever — when
the minimum deadline is already in the past. -/
theorem claim_C6_next_timeout_amended (timeouts : List (Option Nat)) (now : Nat) :
    (compute_next_timeout timeouts = none ↔ ∀ t ∈ timeouts, t = none) ∧
    (∀ m, compute_next_timeout timeouts = some m →
      some m ∈ timeouts ∧ (∀ x, some x ∈ timeouts → m ≤ x)) ∧
    (∀ m, compute_next_timeout timeouts = some m →
      (now ≤ m → compute_next_timeout_duration timeouts now = some (m - now)) ∧
      (m < now → compute_next_timeout_duration timeouts now = none)) := by
  refine ⟨?_, ?_, ?_⟩
  · rw [compute_next_timeout, compute_next_timeout_fold_none]
    constructor
    · rintro ⟨-, h⟩
      exact h
    · intro h
      exact ⟨rfl, h⟩
  · intro m hm
    rw [compute_next_timeout] at hm
    obtain ⟨h1, h2, -⟩ := compute_next_timeout_fold_some timeouts none m hm
    refine ⟨?_, h2⟩
    rcases h1 with h | h
    · exact h
    · exact absurd h (Option.noConfusion)
  · intro m hm
    constructor
    · intro hle
      rw [compute_next_timeout_duration, hm]
      simp [checked_duration_since, hle]
    · intro hlt
      rw [compute_next_timeout_duration, hm]
      have hnle : ¬ now ≤ m := by omega
      simp [checked_duration_since, hnle]

/-- Witness for C6 (amended) at concrete inputs: deadlines {7, 5, none}
give minimum 5; at `now = 3` the wait is 2, at `now = 10` it is
forever. -/
theorem claim_C6_next_timeout_amended_witness :
    (compute_next_timeout [some 7, some 5, none] = some 5) ∧
    (compute_next_timeout_duration [some 7, some 5, none] 3 = some 2) ∧
    (compute_next_timeout_duration [some 7, some 5, none] 10 = none) := by
  have h3 := (claim_C6_next_timeout_amended [some 7, some 5, none] 3).2.2 5 rfl
  have h10 := (claim_C6_next_timeout_amended [some 7, some 5, none] 10).2.2 5 rfl
  exact ⟨rfl, h3.1 (by omega), h10.2 (by omega)⟩

/-! ## SETTINGS receive half

Three copies of the receive half exist in the repository.  The ones in
webtransport/request/settings.rs and webtransport/settings.rs reject
exactly `supports_webtransport == 0`; the older top-level settings.rs
accepts exactly `supports_webtransport == 1` and rejects every other
value.  Only the decision on the decoded value is in-repo logic; the
stream reads and the codec are external, so the functions below take
the decode outcome as input. -/

/-- The outcome of `Settings::decode` on the accumulated buffer. -/
inductive SettingsDecodeResult where
  | unexpectedEnd
  | failed
  | decoded (supports_webtransport : Nat)
  deriving Repr, DecidableEq

/-- The decision of `try_recv` in webtransport/request/settings.rs and
webtransport/settings.rs once a read chunk has been appended:
`UnexpectedEnd` from the codec means keep trying (`ok false`), a codec
error is fatal, and a decoded frame succeeds unless
`supports_webtransport == 0`. -/
def try_recv_decision (r : SettingsDecodeResult) : Except WebTransportError Bool :=
  match r with
  | .unexpectedEnd => .ok false
  | .failed => .error .settingsError
  | .decoded supports =>
    if supports = 0 then .error .webTransportUnsupported else .ok true

/-- The errors of the older top-level settings.rs. -/
inductive SettingsError where
  | unexpectedEnd
  | webTransportUnsupported
  | readError
  | writeError
  | protoError
  deriving Repr, DecidableEq

/-- The decision of `Settings::try_recv` in the top-level settings.rs:
it succeeds only on `supports_webtransport == 1`. -/
def try_recv_decision_legacy (r : SettingsDecodeResult) : Except SettingsError Bool :=
  match r with
  | .unexpectedEnd => .ok false
  | .failed => .error .protoError
  | .decoded supports =>
    if supports = 1 then .ok true else .error .webTransportUnsupported

/-- Counterexample to C7: the claim says every nonzero decoded
`supports_webtransport` completes the receive half, but the top-level
settings.rs variant — cited by the claim — rejects the nonzero value 2
with WebTransportUnsupported. -/
theorem claim_C7_settings_counterexample :
    (2 : Nat) ≠ 0 ∧
    try_recv_decision_legacy (.decoded 2) = .error .webTransportUnsupported := by
  exact ⟨by decide, rfl⟩

/-- C7 (amended): in the webtransport settings receive halves the
update fails with WebTransportUnsupported iff the decoded value is 0
and succeeds for every nonzero value; the top-level settings.rs variant
instead succeeds iff the value is exactly 1, failing with
WebTransportUnsupported for every other value, including nonzero
ones. -/
theorem claim_C7_settings_recv (v : Nat) :
    (try_recv_decision (.decoded v) = .error .webTransportUnsupported ↔ v = 0) ∧
    (v ≠ 0 → try_recv_decision (.decoded v) = .ok true) ∧
    (try_recv_decision_legacy (.decoded v) = .ok true ↔ v = 1) ∧
    (v ≠ 1 →
      try_recv_decision_legacy (.decoded v) = .error .webTransportUnsupported) := by
  refine ⟨?_, ?_, ?_, ?_⟩
  · constructor
    · intro h
      by_contra hne
      rw [try_recv_decision] at h
      simp only [if_neg hne] at h
      exact Except.noConfusion h
    · intro h
      rw [try_recv_decision]
      simp only [if_pos h]
  · intro h
    rw [try_recv_decision]
    simp only [if_neg h]
  · constructor
    · intro h
      by_contra hne
      rw [try_recv_decision_legacy] at h
      simp only [if_neg hne] at h
      exact Except.noConfusion h
    · intro h
      rw [try_recv_decision_legacy]
      simp only [if_pos h]
  · intro h
    rw [try_recv_decision_legacy]
    simp only [if_neg h]

/-- Witness for C7 (amended) at the values 0, 1 and 2. -/
theorem claim_C7_settings_recv_witness :
    (try_recv_decision (.decoded 0) = .error .webTransportUnsupported) ∧
    (try_recv_decision (.decoded 2) = .ok true) ∧
    (try_recv_decision_legacy (.decoded 1) = .ok true) ∧
    (try_recv_decision_legacy (.decoded 2) = .error .webTransportUnsupported) :=
  ⟨(claim_C7_settings_recv 0).1.mpr rfl,
    (claim_C7_settings_recv 2).2.1 (by decide),
    (claim_C7_settings_recv 1).2.2.1.mpr rfl,
    (claim_C7_settings_recv 2).2.2.2 (by decide)⟩

end Squinn
